import Mathlib

/-!
Verification development for the warframe relic profit calculator
(`main.py`).  The Python program is shallowly embedded: JSON numbers
(Python floats) are modelled as extended rationals (`PVal`, carrying the
IEEE special values `inf`, `-inf`, `nan` that the program's sentinel
logic relies on), Python dicts as insertion-ordered association lists,
and Python's stable `list.sort` as a stable insertion sort (for a total
preorder on the keys a stable sort's output is unique, so this agrees
with CPython's Timsort, including `reverse=True`, which CPython
implements reverse-stably).  Fallible code (KeyError, IndexError,
ZeroDivisionError, uncaught JSON exceptions) is modelled with
`Option`/`Except`.
-/

/-- Extended value modelling a Python float as used by `main.py`:
a finite rational, `inf` (the `float("inf")` sentinel of
`calculate_relic_values`), `-inf`, or `nan`. -/
inductive PVal where
  | fin (q : ℚ)
  | inf
  | ninf
  | nan
deriving DecidableEq, Repr

/-- Python `+` on floats, restricted to the values `PVal` models. -/
def padd : PVal → PVal → PVal
  | .nan, _ => .nan
  | _, .nan => .nan
  | .inf, .ninf => .nan
  | .ninf, .inf => .nan
  | .inf, _ => .inf
  | _, .inf => .inf
  | .ninf, _ => .ninf
  | _, .ninf => .ninf
  | .fin a, .fin b => .fin (a + b)

/-- Python `*` on floats. -/
def pmul : PVal → PVal → PVal
  | .nan, _ => .nan
  | _, .nan => .nan
  | .fin a, .fin b => .fin (a * b)
  | .inf, .inf => .inf
  | .inf, .ninf => .ninf
  | .ninf, .inf => .ninf
  | .ninf, .ninf => .inf
  | .inf, .fin b => if b = 0 then .nan else if 0 < b then .inf else .ninf
  | .fin a, .inf => if a = 0 then .nan else if 0 < a then .inf else .ninf
  | .ninf, .fin b => if b = 0 then .nan else if 0 < b then .ninf else .inf
  | .fin a, .ninf => if a = 0 then .nan else if 0 < a then .ninf else .inf

/-- Python `/` on floats for a divisor that is not a (finite) zero.
Division by a finite zero raises `ZeroDivisionError` in Python; that
case is unreachable here behind `pdivChecked` (or a nonzero literal
divisor) and is given the junk value `nan`. -/
def pdivT : PVal → PVal → PVal
  | .nan, _ => .nan
  | _, .nan => .nan
  | .inf, .inf => .nan
  | .inf, .ninf => .nan
  | .ninf, .inf => .nan
  | .ninf, .ninf => .nan
  | .fin _, .inf => .fin 0
  | .fin _, .ninf => .fin 0
  | .inf, .fin b => if b = 0 then .nan else if 0 < b then .inf else .ninf
  | .ninf, .fin b => if b = 0 then .nan else if 0 < b then .ninf else .inf
  | .fin a, .fin b => if b = 0 then .nan else .fin (a / b)

/-- Python `/` with the `ZeroDivisionError` made explicit: `none`
exactly when the divisor is a finite zero. -/
def pdivChecked (x y : PVal) : Option PVal :=
  match y with
  | .fin b => if b = 0 then none else some (pdivT x y)
  | _ => some (pdivT x y)

/-- Rounding of a rational to the nearest integer with ties to even,
as Python's builtin `round` does. -/
def roundHalfEven (q : ℚ) : ℤ :=
  let f := ⌊q⌋
  let r := q - f
  if r < 1 / 2 then f
  else if 1 / 2 < r then f + 1
  else if f % 2 = 0 then f else f + 1

/-- Python `round(q, 2)` on a finite value. -/
def round2 (q : ℚ) : ℚ := (roundHalfEven (q * 100) : ℚ) / 100

/-- Python `round(x, 2)` on a float; `round` is the identity on
`inf`, `-inf` and `nan`. -/
def roundP : PVal → PVal
  | .fin q => .fin (round2 q)
  | v => v

/-- Python `<=` on floats (`False` whenever a `nan` is involved). -/
def pleB : PVal → PVal → Bool
  | .nan, _ => false
  | _, .nan => false
  | .ninf, _ => true
  | _, .ninf => false
  | .fin a, .fin b => decide (a ≤ b)
  | .fin _, .inf => true
  | .inf, .fin _ => false
  | .inf, .inf => true

theorem padd_fin_zero (v : PVal) : padd v (.fin 0) = v := by
  cases v <;> simp [padd]

theorem pleB_trans {a b c : PVal} (h1 : pleB a b = true) (h2 : pleB b c = true) :
    pleB a c = true := by
  cases a <;> cases b <;> cases c <;>
    simp_all [pleB] <;> exact le_trans h1 h2

theorem pleB_fin_total (a b : ℚ) :
    pleB (.fin a) (.fin b) = true ∨ pleB (.fin b) (.fin a) = true := by
  simp [pleB]
  exact le_total a b

/-- Lookup in an insertion-ordered association list (a Python dict). -/
def alookup {α : Type} : List (String × α) → String → Option α
  | [], _ => none
  | (k, v) :: rest, key => if k = key then some v else alookup rest key

/-- One insertion step of a stable insertion sort: `x` is placed before
the first element it compares less-or-equal to. -/
def pyInsert {α : Type} (le : α → α → Bool) (x : α) : List α → List α
  | [] => [x]
  | y :: ys => if le x y then x :: y :: ys else y :: pyInsert le x ys

/-- Stable sort modelling Python's `list.sort` with comparison `le`:
on any list whose elements are totally preordered by `le` it produces
the unique stable `le`-sorted permutation, which is what CPython's
Timsort produces. -/
def pySort {α : Type} (le : α → α → Bool) : List α → List α
  | [] => []
  | x :: xs => pyInsert le x (pySort le xs)

theorem pyInsert_perm {α : Type} (le : α → α → Bool) (x : α) (l : List α) :
    (pyInsert le x l).Perm (x :: l) := by
  induction l with
  | nil => simp [pyInsert]
  | cons y ys ih =>
    by_cases h : le x y = true
    · simp [pyInsert, h]
    · simp only [pyInsert, h, if_neg]
      exact (ih.cons y).trans (List.Perm.swap x y ys)

theorem pySort_perm {α : Type} (le : α → α → Bool) : ∀ l : List α, (pySort le l).Perm l
  | [] => List.Perm.refl _
  | x :: xs => (pyInsert_perm le x (pySort le xs)).trans ((pySort_perm le xs).cons x)

theorem pyInsert_pairwise {α : Type} (le : α → α → Bool)
    (htrans : ∀ a b c, le a b = true → le b c = true → le a c = true)
    (x : α) (l : List α)
    (htot : ∀ b ∈ l, le x b = true ∨ le b x = true)
    (hl : l.Pairwise (fun a b => le a b = true)) :
    (pyInsert le x l).Pairwise (fun a b => le a b = true) := by
  induction l with
  | nil => simp [pyInsert]
  | cons y ys ih =>
    rcases List.pairwise_cons.mp hl with ⟨hy, hys⟩
    by_cases h : le x y = true
    · simp only [pyInsert, h, if_pos]
      refine List.pairwise_cons.mpr ⟨?_, hl⟩
      intro b hb
      rcases List.mem_cons.mp hb with rfl | hb'
      · exact h
      · exact htrans x y b h (hy b hb')
    · have hyx : le y x = true := by
        rcases htot y (by simp) with h' | h'
        · exact absurd h' h
        · exact h'
      simp only [pyInsert, h, if_neg]
      refine List.pairwise_cons.mpr
        ⟨?_, ih (fun b hb => htot b (by simp [hb])) hys⟩
      intro b hb
      have hb' := (pyInsert_perm le x ys).mem_iff.mp hb
      rcases List.mem_cons.mp hb' with rfl | hb''
      · exact hyx
      · exact hy b hb''

theorem pySort_pairwise {α : Type} (le : α → α → Bool)
    (htrans : ∀ a b c, le a b = true → le b c = true → le a c = true) :
    ∀ l : List α, (∀ a ∈ l, ∀ b ∈ l, le a b = true ∨ le b a = true) →
      (pySort le l).Pairwise (fun a b => le a b = true)
  | [], _ => by simp [pySort]
  | x :: xs, htot => by
    have hperm := pySort_perm le xs
    apply pyInsert_pairwise le htrans
    · intro b hb
      have hbx : b ∈ xs := hperm.mem_iff.mp hb
      exact htot x (by simp) b (by simp [hbx])
    · exact pySort_pairwise le htrans xs
        (fun a ha b hb => htot a (by simp [ha]) b (by simp [hb]))

/-- Python `str.lower()` (character-wise, which agrees with Python on
the ASCII names this program handles). -/
def strLower (s : String) : String := String.mk (s.data.map Char.toLower)

/-- Python `str.replace(a, dst)` for a single-character needle `a`
(the only shape `main.py` uses: `" "`, `"&"`), character-wise. -/
def replaceChar (a : Char) (dst : List Char) (s : String) : String :=
  String.mk ((s.data.map (fun c => if c = a then dst else [c])).flatten)

/-- Python `str.split(" ")`: split at every single space, keeping
empty fragments. -/
def splitSpace : List Char → List (List Char)
  | [] => [[]]
  | c :: rest =>
    let r := splitSpace rest
    if c = ' ' then [] :: r
    else
      match r with
      | [] => [[c]]
      | g :: gs => (c :: g) :: gs

/-- Python `" ".join(parts)`. -/
def joinSpace (ls : List (List Char)) : String :=
  String.mk ((ls.intersperse [' ']).flatten)

/-- A reward record inside a relic of `relics.json` (fields
`itemName`, `rarity`, `chance` kept verbatim from the drop-table feed). -/
structure Reward where
  itemName : String
  rarity : String
  chance : ℚ
deriving DecidableEq, Repr

/-- A relic record as written by `get_relics` into `relics.json`
(fields `urlName`, `relicName`, `rewards`, `value`, `price`). -/
structure RelicData where
  urlName : String
  relicName : String
  rewards : List Reward
  value : PVal
  price : ℚ
deriving DecidableEq, Repr

/-- An item record as written by `get_items` into `items.json`. -/
structure Item where
  rarity : String
  chance : ℚ
  urlName : String
  itemName : String
deriving DecidableEq, Repr

/-- One entry of an item's `statistics_closed.90days` list, keeping the
two fields `calculate_relic_values` reads: the ISO `datetime` string
(compared lexicographically by Python's sort, which on these strings is
chronological order) and the per-record `median`. -/
structure StatEntry where
  datetime : String
  median : ℚ
deriving DecidableEq, Repr

/-- One entry of an item's `orders` list, keeping the two fields
`calculate_relic_values` reads: `order_type` and `platinum`. -/
structure MarketOrder where
  order_type : String
  platinum : ℚ
deriving DecidableEq, Repr

/-! ### `get_relics` (main.py lines 90-104): relic naming -/

/-- Display name built at main.py line 91: tier, base name and state
joined by single spaces. -/
def relicDisplayName (tier relicName state : String) : String :=
  tier ++ " " ++ relicName ++ " " ++ state

/-- Slug built at main.py line 94: tier and base name joined by
underscores, suffixed with `_relic`, lowercased.  The code performs no
space replacement and omits the state. -/
def relicUrlName (tier relicName : String) : String :=
  strLower (tier ++ "_" ++ relicName ++ "_relic")

/-- Modelled from the spec's words in section 4.2 for comparison with
`relicUrlName`: lowercase slug with every space replaced by an
underscore. -/
def specRelicUrlName (tier relicName : String) : String :=
  replaceChar ' ' ['_'] (strLower (tier ++ "_" ++ relicName ++ "_relic"))

/-- The `relics[relic_name] = ...` record built at main.py lines 98-104:
value and price are initialised to `0`. -/
def relicEntry (tier relicName state : String) (rewards : List Reward) :
    String × RelicData :=
  (relicDisplayName tier relicName state,
   { urlName := relicUrlName tier relicName,
     relicName := relicDisplayName tier relicName state,
     rewards := rewards, value := .fin 0, price := 0 })

/-! ### `check_update` (main.py lines 15-36): 24-hour staleness check -/

/-- The `timestamp` entry of the parsed `relics.json` object as
`check_update` observes it through `relics.get("timestamp")`:
absent (`None`), a number, some other falsy value (e.g. `""`), or some
other truthy value (on which `+ 24*60*60` raises `TypeError`). -/
inductive TsVal where
  | missing
  | num (q : ℚ)
  | otherFalsy
  | otherTruthy
deriving DecidableEq, Repr

/-- The text content of `relics.json` as far as `check_update` can
distinguish it: the empty string; non-empty text that `json.loads`
rejects (`JSONDecodeError`); valid JSON that is not an object (so
`.get` raises `AttributeError`); or a JSON object with its `timestamp`
entry. -/
inductive FileContent where
  | emptyText
  | unparseable
  | nonObject
  | object (ts : TsVal)
deriving DecidableEq, Repr

/-- The `relics.json` file: absent (`FileNotFoundError`, caught) or
present with some content. -/
inductive FileState where
  | absent
  | present (c : FileContent)
deriving DecidableEq, Repr

/-- Embedding of `check_update` (main.py lines 15-36), given the file
state and the current time `now` (seconds since epoch, `time.time()`).
`Except.error ()` marks an uncaught Python exception: only
`FileNotFoundError` is caught, so unparseable text, non-object JSON and
a truthy non-numeric timestamp all propagate an exception. -/
def check_update : FileState → ℚ → Except Unit Bool
  | .absent, _ => .ok true
  | .present .emptyText, _ => .ok true
  | .present .unparseable, _ => .error ()
  | .present .nonObject, _ => .error ()
  | .present (.object .missing), _ => .ok false
  | .present (.object .otherFalsy), _ => .ok false
  | .present (.object .otherTruthy), _ => .error ()
  | .present (.object (.num t)), now =>
      .ok (decide (t ≠ 0 ∧ t + 24 * 60 * 60 < now))

/-! ### `get_items` (main.py lines 112-159): item catalog derivation -/

/-- The item record built at main.py lines 145-153 from a reward:
slug = item name with spaces replaced by underscores, lowercased, with
ampersands replaced by `and`. -/
def mkItem (rw : Reward) : Item :=
  { rarity := rw.rarity, chance := rw.chance,
    urlName :=
      replaceChar '&' ['a', 'n', 'd']
        (strLower (replaceChar ' ' ['_'] rw.itemName)),
    itemName := rw.itemName }

/-- One iteration of the inner loop at main.py lines 143-153: a reward
is added only if its item name is not yet a key of the dict
(first-seen wins). -/
def insertReward (items : List (String × Item)) (rw : Reward) :
    List (String × Item) :=
  if (alookup items rw.itemName).isSome then items
  else items ++ [(rw.itemName, mkItem rw)]

/-- The double loop of main.py lines 142-153 building `items.json`
from the relic catalog. -/
def buildItems (relics : List (String × RelicData)) : List (String × Item) :=
  relics.foldl (fun items p => p.2.rewards.foldl insertReward items) []

/-- A run of `get_items` (main.py lines 112-159) as a function of the
prior `items.json` state (`none` = absent or empty, which forces a
rebuild), the relic catalog read from `relics.json`, and the
`needs_update` argument.  The result is the `items.json` content after
the run. -/
def getItemsRun (itemsFile : Option (List (String × Item)))
    (relics : List (String × RelicData)) (needsUpdate : Bool) :
    List (String × Item) :=
  match itemsFile with
  | none => buildItems relics
  | some existing => if needsUpdate then buildItems relics else existing

/-- First reward record carrying a given item name, in the traversal
order of the double loop (relics in insertion order, each reward list
in order). -/
def firstRewardOcc (relics : List (String × RelicData)) (name : String) :
    Option Reward :=
  ((relics.map (fun p => p.2.rewards)).flatten).find?
    (fun rw => rw.itemName == name)

/-! ### `get_info` (main.py lines 162-201): fetch with 429 retry -/

/-- Embedding of `get_info`'s retry loop (main.py lines 192-201) for a
fixed request, against a server described by the status stream `resp`
(`resp k` = HTTP status of the k-th attempt of this same request).
`get_info resp k fuel` runs from attempt `k` with `fuel` remaining
attempts; `fuel` is only a device to express the unbounded recursion:
`none` means the call has not returned within `fuel` attempts.  On a
429 the code sleeps 1 second and re-issues the identical request, so a
returning call yields `(n, resp n)` where `n` counts both the retries
performed and the seconds of backoff slept. -/
def get_info (resp : ℕ → ℕ) : ℕ → ℕ → Option (ℕ × ℕ)
  | _, 0 => none
  | k, fuel + 1 =>
    if resp k = 429 then get_info resp (k + 1) fuel
    else some (k, resp k)

/-! ### `calculate_relic_values` (main.py lines 251-326) -/

/-- Strict lexicographic comparison of strings by code point, which is
how Python compares the ISO `datetime` strings. -/
def charListLt : List Char → List Char → Bool
  | [], [] => false
  | [], _ :: _ => true
  | _ :: _, [] => false
  | a :: as, b :: bs => if a < b then true else if b < a then false else charListLt as bs

/-- Python `<` on strings. -/
def strLt (a b : String) : Bool := charListLt a.data b.data

/-- Comparison used by the sort at main.py line 286
(`key=lambda x: x["datetime"]`): Python's stable sort keeps `a` before
`b` unless `b`'s key is strictly smaller. -/
def statDateLe (a b : StatEntry) : Bool := !(strLt b.datetime a.datetime)

/-- Statistics-mode price of one item (main.py lines 283-291): sort the
90-day closed window by datetime ascending, take the first 7 entries,
average their medians, round to 2 decimals; an empty window hits the
`ZeroDivisionError` handler and yields `float("inf")`. -/
def statPrice (entries : List StatEntry) : PVal :=
  let sorted := pySort statDateLe entries
  let medians := (sorted.take 7).map (fun e => e.median)
  if medians.length = 0 then PVal.inf
  else PVal.fin (round2 (medians.sum / (medians.length : ℚ)))

/-- The statistics-mode `median_plat` dict (main.py lines 280-291). -/
def statsPlat (sd : List (String × List StatEntry)) : List (String × PVal) :=
  sd.map (fun p => (p.1, statPrice p.2))

/-- Ascending comparison for `all_plat.sort()` at main.py line 275. -/
def qLe (a b : ℚ) : Bool := decide (a ≤ b)

/-- Live-order-mode price of one item (main.py lines 270-276): the
platinum prices of all `sell` orders, sorted ascending, indexed at
`len // 2`.  `none` models the `IndexError` raised for an item with no
sell orders (the list is empty and index 0 is out of range). -/
def livePrice (orders : List MarketOrder) : Option ℚ :=
  let plats := (orders.filter (fun o => o.order_type == "sell")).map
    (fun o => o.platinum)
  let s := pySort qLe plats
  s.get? (s.length / 2)

/-- The live-mode `median_plat` dict (main.py lines 269-276); `none`
models the uncaught `IndexError` aborting the whole computation. -/
def livePlat (od : List (String × List MarketOrder)) :
    Option (List (String × PVal)) :=
  od.mapM (fun p => (livePrice p.2).map (fun q => (p.1, PVal.fin q)))

/-- The value loop body for one relic (main.py lines 300-304): starting
from the stored `value` field, add `median_plat[item] * chance / 100`
for every reward whose item name is a key of `median_plat`; other
rewards are skipped. -/
def computeValue (mp : List (String × PVal)) (r : RelicData) : PVal :=
  r.rewards.foldl
    (fun acc rw =>
      match alookup mp rw.itemName with
      | some p => padd acc (pdivT (pmul p (.fin rw.chance)) (.fin 100))
      | none => acc)
    r.value

/-- Folding `padd` over a list of contributions, starting from `0`. -/
def pvalSum (l : List PVal) : PVal := l.foldl padd (.fin 0)

/-- The `new_relics` dict after the value loop (main.py lines 296-304). -/
def updateValues (mp : List (String × PVal))
    (relics : List (String × RelicData)) : List (String × RelicData) :=
  relics.map (fun p => (p.1, { p.2 with value := computeValue mp p.2 }))

/-- Descending-by-value comparison of the sort at main.py line 306
(`key=lambda x: x[1]["value"], reverse=True`). -/
def relicValueLe (a b : String × RelicData) : Bool := pleB b.2.value a.2.value

/-- `sorted_relics` (main.py lines 305-306). -/
def valueSorted (mp : List (String × PVal))
    (relics : List (String × RelicData)) : List (String × RelicData) :=
  pySort relicValueLe (updateValues mp relics)

/-- The `median_plat` lookup key built at main.py line 316: the first
two space-separated tokens of the relic's name, rejoined with a space,
plus the literal suffix `" Intact"`. -/
def intactKey (name : String) : String :=
  joinSpace ((splitSpace name.data).take 2) ++ " Intact"

/-- One entry of `value_divided_by_price` (main.py lines 316-317):
`none` models an uncaught `KeyError` (intact name not in `median_plat`)
or `ZeroDivisionError` (intact price a finite zero). -/
def profitEntry (mp : List (String × PVal)) (p : String × RelicData) :
    Option (String × PVal) := do
  let price ← alookup mp (intactKey p.1)
  let ratio ← pdivChecked p.2.value price
  pure (p.1, roundP ratio)

/-- `value_divided_by_price` before sorting (main.py lines 314-317). -/
def profitEntries (mp : List (String × PVal))
    (relics : List (String × RelicData)) : Option (List (String × PVal)) :=
  relics.mapM (profitEntry mp)

/-- Descending-by-ratio comparison of the sort at main.py line 318. -/
def profitRatioLe (a b : String × PVal) : Bool := pleB b.2 a.2

/-- The profit ranking (main.py lines 314-318): ratio entries in
`sorted_relics` order, then sorted descending by ratio. -/
def profitStage (mp : List (String × PVal))
    (relics : List (String × RelicData)) : Option (List (String × PVal)) :=
  (profitEntries mp relics).map (pySort profitRatioLe)

/-- Whole-function embedding of `calculate_relic_values` given the
parsed `orders.json`, `statistics.json` and `relics.json` contents:
produces `(sorted_relics, value_divided_by_price)`; `none` marks the
run aborting on an uncaught exception. -/
def calculate_relic_values (live : Bool)
    (orderDict : List (String × List MarketOrder))
    (statsDict : List (String × List StatEntry))
    (relics : List (String × RelicData)) :
    Option (List (String × RelicData) × List (String × PVal)) := do
  let mp ← if live then livePlat orderDict else some (statsPlat statsDict)
  let sorted := valueSorted mp relics
  let profit ← profitStage mp sorted
  pure (sorted, profit)

/-! ### Concurrency model of the fetch phase

`main` builds one `asyncio.Semaphore(pool_size)`; every task in
`get_all_info` runs `get_info` inside `async with sem`
(`safe_get_info`, main.py lines 211-215).  The state of one fetch task
is: not yet admitted (`waiting`), holding a semaphore slot and awaiting
attempt `k` of its request (`running k`), or finished after attempt `k`
(`done k`).  Transitions of the event loop: `acquire` admits a waiting
task when a permit is free; `retry` is a task receiving a 429, sleeping
and re-issuing its request while it keeps its slot (main.py lines
194-196); `finish` is a task receiving a non-429 and releasing its
slot.  `is429 i k` says whether task `i`'s attempt `k` is throttled. -/

inductive TStatus where
  | waiting
  | running (attempt : ℕ)
  | done (attempt : ℕ)
deriving DecidableEq, Repr

/-- Event-loop state: free semaphore permits plus one status per task. -/
structure PoolState where
  avail : ℕ
  tasks : List TStatus
deriving DecidableEq, Repr

/-- Number of requests currently in flight (tasks holding a slot). -/
def countRunning (ts : List TStatus) : ℕ :=
  (ts.map (fun t => match t with | .running _ => 1 | _ => 0)).sum

/-- One event-loop transition of the fetch phase. -/
inductive PoolStep (is429 : ℕ → ℕ → Bool) : PoolState → PoolState → Prop where
  | acquire (s : PoolState) (i : ℕ) :
      s.tasks.get? i = some .waiting → 0 < s.avail →
      PoolStep is429 s ⟨s.avail - 1, s.tasks.set i (.running 0)⟩
  | retry (s : PoolState) (i k : ℕ) :
      s.tasks.get? i = some (.running k) → is429 i k = true →
      PoolStep is429 s ⟨s.avail, s.tasks.set i (.running (k + 1))⟩
  | finish (s : PoolState) (i k : ℕ) :
      s.tasks.get? i = some (.running k) → is429 i k = false →
      PoolStep is429 s ⟨s.avail + 1, s.tasks.set i (.done k)⟩

/-- Reachability through event-loop transitions. -/
def PoolReach (is429 : ℕ → ℕ → Bool) : PoolState → PoolState → Prop :=
  Relation.ReflTransGen (PoolStep is429)

/-! ### Claim theorems -/

/-- Contribution of one reward to a relic's value: the looked-up price
times the chance over 100, or zero when the item is not a key of
`median_plat`. -/
def rewardTerm (mp : List (String × PVal)) (rw : Reward) : PVal :=
  match alookup mp rw.itemName with
  | some p => pdivT (pmul p (.fin rw.chance)) (.fin 100)
  | none => .fin 0

theorem computeValue_foldl_eq (mp : List (String × PVal)) :
    ∀ (rws : List Reward) (init : PVal),
      rws.foldl
        (fun acc rw =>
          match alookup mp rw.itemName with
          | some p => padd acc (pdivT (pmul p (.fin rw.chance)) (.fin 100))
          | none => acc)
        init =
      rws.foldl (fun acc rw => padd acc (rewardTerm mp rw)) init := by
  intro rws
  induction rws with
  | nil => intro init; rfl
  | cons rw rws ih =>
    intro init
    simp only [List.foldl_cons]
    cases h : alookup mp rw.itemName with
    | none => rw [show rewardTerm mp rw = .fin 0 by simp [rewardTerm, h]]
              rw [padd_fin_zero]
              exact ih init
    | some p => rw [show rewardTerm mp rw = pdivT (pmul p (.fin rw.chance)) (.fin 100)
                      by simp [rewardTerm, h]]
                exact ih _

/-- C1.  For every relic whose stored `value` field is the `0` that
`get_relics` wrote, the value computed by the loop at main.py lines
300-304 equals the sum over its rewards of
price-estimate `*` chance `/` 100, where a reward whose item name is
not a key of `median_plat` (no price estimate was derived for it)
contributes zero; in particular a relic with rewards (item `X` priced
10, chance 25) and (item `Y` with no price estimate, chance 25) gets
value 2.5 without error. -/
theorem c1_relic_value :
    (∀ (mp : List (String × PVal)) (r : RelicData), r.value = .fin 0 →
      computeValue mp r = pvalSum (r.rewards.map (rewardTerm mp))) ∧
    computeValue [("X", .fin 10)]
      { urlName := "x_relic", relicName := "Lith X1 Intact",
        rewards := [⟨"X", "Common", 25⟩, ⟨"Y", "Common", 25⟩],
        value := .fin 0, price := 0 } = .fin (5 / 2) := by
  constructor
  · intro mp r h
    unfold computeValue pvalSum
    rw [h, computeValue_foldl_eq, List.foldl_map]
  · simp [computeValue, alookup, padd, pmul, pdivT]
    norm_num

/-- Witness for C1 at the claim's own example: item `X` priced 10 with
chance 25 and item `Y` absent from `median_plat` with chance 25. -/
theorem c1_relic_value_witness :
    computeValue [("X", .fin 10)]
      { urlName := "x_relic", relicName := "Lith X1 Intact",
        rewards := [⟨"X", "Common", 25⟩, ⟨"Y", "Common", 25⟩],
        value := .fin 0, price := 0 } =
    pvalSum ([Reward.mk "X" "Common" 25, Reward.mk "Y" "Common" 25].map
      (rewardTerm [("X", .fin 10)])) :=
  c1_relic_value.1 _ _ rfl

/-- C6 (amended).  The staleness check returns `true` for an absent
file, an empty file, and a parsed object whose numeric timestamp is
nonzero and more than 24 hours older than now; a missing or falsy
timestamp yields `false`; all of these return without an exception.
(The original claim's "never throws regardless of the file's content"
is refuted by `c6_counterexample`: content that `json.loads` cannot
parse, or that is not an object, raises an uncaught exception.) -/
theorem c6_staleness (now : ℚ) :
    check_update .absent now = .ok true ∧
    check_update (.present .emptyText) now = .ok true ∧
    (∀ t : ℚ, check_update (.present (.object (.num t))) now =
      .ok (decide (t ≠ 0 ∧ t + 24 * 60 * 60 < now))) ∧
    check_update (.present (.object .missing)) now = .ok false ∧
    check_update (.present (.object .otherFalsy)) now = .ok false :=
  ⟨rfl, rfl, fun _ => rfl, rfl, rfl⟩

/-- Counterexample to C6 as stated: a present, non-empty `relics.json`
whose text is not valid JSON (or parses to a non-object) makes
`check_update` raise an uncaught exception — only `FileNotFoundError`
is caught at main.py line 34 — contradicting "never throws regardless
of the file's content". -/
theorem c6_counterexample :
    check_update (.present .unparseable) 1000 = .error () ∧
    check_update (.present .nonObject) 1000 = .error () :=
  ⟨rfl, rfl⟩

/-- C10.  A present, non-empty, parseable relic snapshot with no
`timestamp` key (or a timestamp of 0, which is falsy in Python) makes
`check_update` return `false` for every current time, so it is treated
as fresh forever by the 24-hour policy. -/
theorem c10_falsy_timestamp_fresh (now : ℚ) :
    check_update (.present (.object .missing)) now = .ok false ∧
    check_update (.present (.object (.num 0))) now = .ok false := by
  refine ⟨rfl, ?_⟩
  simp [check_update]

/-- C7 (amended).  For every drop-table record the display name is
tier, base name and state joined by spaces, and the slug is the
lowercased tier-underscore-base-underscore-`relic` string with the
state omitted and with no space replacement; in particular tier `Lith`,
base `A1`, state `Intact` give display name `Lith A1 Intact` and slug
`lith_a1_relic`.  (The original claim's "every space replaced by an
underscore" is refuted by `c7_counterexample`.) -/
theorem c7_relic_naming :
    (∀ (tier base state : String) (rewards : List Reward),
      (relicEntry tier base state rewards).1 = tier ++ " " ++ base ++ " " ++ state ∧
      (relicEntry tier base state rewards).2.urlName =
        strLower (tier ++ "_" ++ base ++ "_relic") ∧
      (relicEntry tier base state rewards).2.value = .fin 0) ∧
    relicDisplayName "Lith" "A1" "Intact" = "Lith A1 Intact" ∧
    relicUrlName "Lith" "A1" = "lith_a1_relic" := by
  refine ⟨fun tier base state rewards => ⟨rfl, rfl, rfl⟩, rfl, by decide⟩

/-- Counterexample to C7 as stated: the code builds the slug by
lowercasing only (main.py lines 94-96) and never replaces spaces, so a
base name containing a space keeps it, while the claimed
space-to-underscore slug differs. -/
theorem c7_counterexample :
    relicUrlName "Lith" "A 1" = "lith_a 1_relic" ∧
    specRelicUrlName "Lith" "A 1" = "lith_a_1_relic" ∧
    relicUrlName "Lith" "A 1" ≠ specRelicUrlName "Lith" "A 1" := by
  refine ⟨by decide, by decide, by decide⟩

/-- C4.  In live-order mode the price estimate of an item with at least
one sell offer is the element at index `count / 2` (floor) of the
ascending-sorted list of its sell platinum prices — the upper median,
not a mean: `[10, 20, 15]` gives 15 and `[10, 20]` gives 20 — while an
item with zero sell offers hits an index-out-of-range condition
(`all_plat[0]` on an empty list, main.py line 276). -/
theorem c4_live_median :
    (∀ orders : List MarketOrder,
      (orders.filter (fun o => o.order_type == "sell")) ≠ [] →
      ∃ s : List ℚ,
        s.Perm ((orders.filter (fun o => o.order_type == "sell")).map
          (fun o => o.platinum)) ∧
        s.Pairwise (fun a b => a ≤ b) ∧
        livePrice orders = s.get? (s.length / 2) ∧
        (livePrice orders).isSome) ∧
    livePrice [⟨"sell", 10⟩, ⟨"sell", 20⟩, ⟨"sell", 15⟩] = some 15 ∧
    livePrice [⟨"sell", 10⟩, ⟨"sell", 20⟩] = some 20 ∧
    (∀ orders : List MarketOrder,
      (orders.filter (fun o => o.order_type == "sell")) = [] →
      livePrice orders = none) := by
  refine ⟨?_, ?_, ?_, ?_⟩
  · intro orders hne
    set plats := (orders.filter (fun o => o.order_type == "sell")).map
      (fun o => o.platinum) with hplats
    refine ⟨pySort qLe plats, pySort_perm qLe plats, ?_, rfl, ?_⟩
    · have hpw := pySort_pairwise qLe
        (fun a b c h1 h2 => by
          simp only [qLe, decide_eq_true_eq] at h1 h2 ⊢; exact le_trans h1 h2)
        plats
        (fun a _ b _ => by
          simp only [qLe, decide_eq_true_eq]; exact le_total a b)
      exact hpw.imp (fun h => by simpa [qLe] using h)
    · have hlen : plats ≠ [] := by
        intro h
        apply hne
        have := congrArg List.length h
        simp only [hplats, List.length_map] at this
        exact List.eq_nil_of_length_eq_zero this
      have hlen2 : (pySort qLe plats).length = plats.length :=
        (pySort_perm qLe plats).length_eq
      have hpos : 0 < (pySort qLe plats).length := by
        rw [hlen2]
        exact List.length_pos.mpr hlen
      have hidx : (pySort qLe plats).length / 2 < (pySort qLe plats).length := by
        omega
      simp only [livePrice]
      rw [List.get?_eq_get hidx]
      simp
  · simp [livePrice, pySort, pyInsert, qLe]
    norm_num
  · simp [livePrice, pySort, pyInsert, qLe]
    norm_num
  · intro orders h
    simp [livePrice, h, pySort]

/-- Witness for C4 at the claim's own `[10, 20, 15]` example. -/
theorem c4_live_median_witness :
    ∃ s : List ℚ,
      s.Perm ((([⟨"sell", 10⟩, ⟨"sell", 20⟩, ⟨"sell", 15⟩] :
        List MarketOrder).filter (fun o => o.order_type == "sell")).map
          (fun o => o.platinum)) ∧
      s.Pairwise (fun a b => a ≤ b) ∧
      livePrice [⟨"sell", 10⟩, ⟨"sell", 20⟩, ⟨"sell", 15⟩] = s.get? (s.length / 2) ∧
      (livePrice [⟨"sell", 10⟩, ⟨"sell", 20⟩, ⟨"sell", 15⟩]).isSome :=
  c4_live_median.1 _ (by decide)

theorem get_info_all429 (resp : ℕ → ℕ) (h : ∀ n, resp n = 429) :
    ∀ fuel k, get_info resp k fuel = none := by
  intro fuel
  induction fuel with
  | zero => intro k; rfl
  | succ f ih =>
    intro k
    simp only [get_info, h k, if_pos]
    exact ih (k + 1)

theorem get_info_first_success :
    ∀ (fuel k n : ℕ) (resp : ℕ → ℕ),
      (∀ m, m < n → resp (k + m) = 429) → resp (k + n) ≠ 429 → n < fuel →
      get_info resp k fuel = some (k + n, resp (k + n)) := by
  intro fuel
  induction fuel with
  | zero => intro k n resp _ _ h; omega
  | succ f ih =>
    intro k n resp h1 h2 hlt
    by_cases h : resp k = 429
    · cases n with
      | zero =>
        exact absurd (by simpa using h) (by simpa using h2)
      | succ m =>
        simp only [get_info, h, if_pos]
        have hrec := ih (k + 1) m resp
          (fun j hj => by
            have := h1 (j + 1) (by omega)
            rwa [show k + (j + 1) = k + 1 + j by omega] at this)
          (by rwa [show k + 1 + m = k + (m + 1) by omega])
          (by omega)
        rw [show k + (m + 1) = k + 1 + m by omega]
        exact hrec
    · have hn : n = 0 := by
        by_contra hne
        exact h (by simpa using h1 0 (by omega))
      subst hn
      simp only [get_info, h, if_neg]
      simp

/-- C5.  The 429 branch of `get_info` (main.py lines 194-196) sleeps a
fixed 1-second backoff and re-issues the identical request with no
retry ceiling: against a server that answers 429 forever the call never
returns within any number of attempts, and it returns exactly when some
attempt `n` first receives a non-429 response, after `n` retries (and
`n` seconds of backoff). -/
theorem c5_retry_unbounded :
    (∀ resp : ℕ → ℕ, (∀ n, resp n = 429) →
      ∀ fuel, get_info resp 0 fuel = none) ∧
    (∀ (resp : ℕ → ℕ) (n : ℕ),
      (∀ m, m < n → resp m = 429) → resp n ≠ 429 →
      ∀ fuel, n < fuel → get_info resp 0 fuel = some (n, resp n)) := by
  constructor
  · intro resp h fuel
    exact get_info_all429 resp h fuel 0
  · intro resp n h1 h2 fuel hlt
    have := get_info_first_success fuel 0 n resp
      (fun m hm => by simpa using h1 m hm) (by simpa using h2) hlt
    simpa using this

/-- Witness for C5: a server that always throttles never lets the call
return (any fuel, here 1000), and a server that throttles the first two
attempts and then answers 200 makes the call return after exactly 2
retries. -/
theorem c5_retry_unbounded_witness :
    get_info (fun _ => 429) 0 1000 = none ∧
    get_info (fun n => if n < 2 then 429 else 200) 0 3 = some (2, 200) := by
  constructor
  · exact c5_retry_unbounded.1 (fun _ => 429) (fun _ => rfl) 1000
  · have := c5_retry_unbounded.2 (fun n => if n < 2 then 429 else 200) 2
      (fun m hm => by simp [hm]) (by norm_num) 3 (by norm_num)
    simpa using this

theorem alookup_append_single {α : Type} (l : List (String × α)) (k : String)
    (v : α) (key : String) :
    alookup (l ++ [(k, v)]) key =
      match alookup l key with
      | some w => some w
      | none => if k = key then some v else none := by
  induction l with
  | nil => simp [alookup]
  | cons p rest ih =>
    by_cases h : p.1 = key
    · simp [alookup, h]
    · simp only [List.cons_append, alookup, h, if_neg]
      exact ih

theorem alookup_eq_none_iff {α : Type} (l : List (String × α)) (key : String) :
    alookup l key = none ↔ key ∉ l.map Prod.fst := by
  induction l with
  | nil => simp [alookup]
  | cons p rest ih =>
    by_cases h : p.1 = key
    · simp [alookup, h]
    · simp only [alookup, h, if_neg, if_false, List.map_cons, List.mem_cons]
      rw [ih]
      constructor
      · intro hk hor
        rcases hor with h1 | h2
        · exact h h1.symm
        · exact hk h2
      · intro hk h2
        exact hk (Or.inr h2)

theorem foldl_insertReward_alookup (rws : List Reward) :
    ∀ (items : List (String × Item)) (name : String),
      alookup (rws.foldl insertReward items) name =
        match alookup items name with
        | some it => some it
        | none => (rws.find? (fun rw => rw.itemName == name)).map mkItem := by
  induction rws with
  | nil =>
    intro items name
    cases h : alookup items name <;> simp [h]
  | cons rw rws ih =>
    intro items name
    simp only [List.foldl_cons]
    by_cases hmem : (alookup items rw.itemName).isSome
    · rw [show insertReward items rw = items by simp [insertReward, hmem]]
      rw [ih items name]
      cases h : alookup items name with
      | some it => simp
      | none =>
        have hne : rw.itemName ≠ name := by
          intro he
          rw [he] at hmem
          rw [h] at hmem
          simp at hmem
        have hbeq : (rw.itemName == name) = false := by
          rw [beq_eq_false_iff_ne]
          exact hne
        simp [List.find?, hbeq]
    · rw [show insertReward items rw = items ++ [(rw.itemName, mkItem rw)]
        by simp [insertReward, hmem]]
      rw [ih _ name]
      rw [alookup_append_single]
      cases h : alookup items name with
      | some it => simp
      | none =>
        by_cases he : rw.itemName = name
        · have hbeq : (rw.itemName == name) = true := by simp [he]
          simp [List.find?, hbeq, he]
        · have hbeq : (rw.itemName == name) = false := by
            rw [beq_eq_false_iff_ne]
            exact he
          simp [List.find?, hbeq, he]

theorem buildItems_foldl_eq (relics : List (String × RelicData)) :
    ∀ init : List (String × Item),
      relics.foldl (fun items p => p.2.rewards.foldl insertReward items) init =
        ((relics.map (fun p => p.2.rewards)).flatten).foldl insertReward init := by
  induction relics with
  | nil => intro init; rfl
  | cons p ps ih =>
    intro init
    simp only [List.foldl_cons, List.map_cons, List.flatten_cons,
      List.foldl_append]
    exact ih _

theorem foldl_insertReward_nodup (rws : List Reward) :
    ∀ items : List (String × Item), (items.map Prod.fst).Nodup →
      ((rws.foldl insertReward items).map Prod.fst).Nodup := by
  induction rws with
  | nil => intro items h; exact h
  | cons rw rws ih =>
    intro items h
    simp only [List.foldl_cons]
    apply ih
    by_cases hmem : (alookup items rw.itemName).isSome
    · rw [show insertReward items rw = items by simp [insertReward, hmem]]
      exact h
    · rw [show insertReward items rw = items ++ [(rw.itemName, mkItem rw)]
        by simp [insertReward, hmem]]
      have hnone : alookup items rw.itemName = none := by
        cases hx : alookup items rw.itemName
        · rfl
        · rw [hx] at hmem; simp at hmem
      have hnin : rw.itemName ∉ items.map Prod.fst :=
        (alookup_eq_none_iff items rw.itemName).mp hnone
      simp only [List.map_append, List.map_cons, List.map_nil]
      rw [List.nodup_append]
      refine ⟨h, List.nodup_singleton _, ?_⟩
      intro a ha hb
      simp only [List.mem_singleton] at hb
      subst hb
      exact hnin ha

/-- C8.  Rebuilding the item catalog is idempotent — a second run of
`get_items` over the same relic catalog, whatever its `needs_update`
argument, leaves the items file exactly as the first run wrote it — and
when an item name occurs in several reward lists the catalog keeps the
record derived from its first occurrence in traversal order (rarity,
chance and slug of later duplicates are discarded); the catalog never
holds two records for one name. -/
theorem c8_item_catalog :
    (∀ (relics : List (String × RelicData)) (u u' : Bool),
      getItemsRun (some (getItemsRun none relics u)) relics u' =
        getItemsRun none relics u) ∧
    (∀ (relics : List (String × RelicData)) (name : String),
      alookup (buildItems relics) name = (firstRewardOcc relics name).map mkItem) ∧
    (∀ relics : List (String × RelicData),
      ((buildItems relics).map Prod.fst).Nodup) := by
  refine ⟨?_, ?_, ?_⟩
  · intro relics u u'
    cases u' <;> rfl
  · intro relics name
    unfold buildItems firstRewardOcc
    rw [buildItems_foldl_eq]
    rw [foldl_insertReward_alookup]
    simp [alookup]
  · intro relics
    unfold buildItems
    rw [buildItems_foldl_eq]
    exact foldl_insertReward_nodup _ [] (by simp)

theorem charListLt_irrefl : ∀ a : List Char, charListLt a a = false := by
  intro a
  induction a with
  | nil => rfl
  | cons c cs ih => simp [charListLt, lt_irrefl, ih]

theorem charListLt_trans :
    ∀ {a b c : List Char}, charListLt a b = true → charListLt b c = true →
      charListLt a c = true := by
  intro a
  induction a with
  | nil =>
    intro b c hab hbc
    cases b with
    | nil => simp [charListLt] at hab
    | cons y ys =>
      cases c with
      | nil => simp [charListLt] at hbc
      | cons z zs => rfl
  | cons x xs ih =>
    intro b c hab hbc
    cases b with
    | nil => simp [charListLt] at hab
    | cons y ys =>
      cases c with
      | nil => simp [charListLt] at hbc
      | cons z zs =>
        rcases lt_trichotomy x y with hxy | hxy | hxy
        · rcases lt_trichotomy y z with hyz | hyz | hyz
          · simp [charListLt, lt_trans hxy hyz]
          · subst hyz
            simp [charListLt, hxy]
          · rw [show charListLt (y :: ys) (z :: zs) =
                (if y < z then true else if z < y then false else charListLt ys zs)
                from rfl] at hbc
            rw [if_neg (lt_asymm hyz), if_pos hyz] at hbc
            exact absurd hbc (by simp)
        · subst hxy
          rw [show charListLt (x :: xs) (x :: ys) =
              (if x < x then true else if x < x then false else charListLt xs ys)
              from rfl] at hab
          rw [if_neg (lt_irrefl x), if_neg (lt_irrefl x)] at hab
          rw [show charListLt (x :: ys) (z :: zs) =
              (if x < z then true else if z < x then false else charListLt ys zs)
              from rfl] at hbc
          rcases lt_trichotomy x z with hxz | hxz | hxz
          · simp [charListLt, hxz]
          · subst hxz
            rw [if_neg (lt_irrefl x), if_neg (lt_irrefl x)] at hbc
            simp only [charListLt, if_neg (lt_irrefl x)]
            exact ih hab hbc
          · rw [if_neg (lt_asymm hxz), if_pos hxz] at hbc
            exact absurd hbc (by simp)
        · rw [show charListLt (x :: xs) (y :: ys) =
              (if x < y then true else if y < x then false else charListLt xs ys)
              from rfl] at hab
          rw [if_neg (lt_asymm hxy), if_pos hxy] at hab
          exact absurd hab (by simp)

theorem charListLt_conn :
    ∀ {a b : List Char}, charListLt a b = false → charListLt b a = false →
      a = b := by
  intro a
  induction a with
  | nil =>
    intro b hab _
    cases b with
    | nil => rfl
    | cons y ys => simp [charListLt] at hab
  | cons x xs ih =>
    intro b hab hba
    cases b with
    | nil => simp [charListLt] at hba
    | cons y ys =>
      rcases lt_trichotomy x y with hxy | hxy | hxy
      · rw [show charListLt (x :: xs) (y :: ys) =
            (if x < y then true else if y < x then false else charListLt xs ys)
            from rfl, if_pos hxy] at hab
        exact absurd hab (by simp)
      · subst hxy
        rw [show charListLt (x :: xs) (x :: ys) =
            (if x < x then true else if x < x then false else charListLt xs ys)
            from rfl, if_neg (lt_irrefl x), if_neg (lt_irrefl x)] at hab
        rw [show charListLt (x :: ys) (x :: xs) =
            (if x < x then true else if x < x then false else charListLt ys xs)
            from rfl, if_neg (lt_irrefl x), if_neg (lt_irrefl x)] at hba
        rw [ih hab hba]
      · rw [show charListLt (y :: ys) (x :: xs) =
            (if y < x then true else if x < y then false else charListLt ys xs)
            from rfl, if_pos hxy] at hba
        exact absurd hba (by simp)

theorem statDateLe_trans (a b c : StatEntry)
    (h1 : statDateLe a b = true) (h2 : statDateLe b c = true) :
    statDateLe a c = true := by
  simp only [statDateLe, strLt, Bool.not_eq_true'] at h1 h2 ⊢
  cases hca : charListLt c.datetime.data a.datetime.data with
  | false => rfl
  | true =>
    exfalso
    cases hbc : charListLt b.datetime.data c.datetime.data with
    | true =>
      have := charListLt_trans hbc hca
      rw [h1] at this
      exact Bool.false_ne_true this
    | false =>
      have heq := charListLt_conn hbc h2
      rw [← heq] at hca
      rw [h1] at hca
      exact Bool.false_ne_true hca

theorem statDateLe_total (a b : StatEntry) :
    statDateLe a b = true ∨ statDateLe b a = true := by
  simp only [statDateLe, strLt, Bool.not_eq_true']
  cases hab : charListLt b.datetime.data a.datetime.data with
  | false => exact Or.inl rfl
  | true =>
    cases hba : charListLt a.datetime.data b.datetime.data with
    | false => exact Or.inr rfl
    | true =>
      have := charListLt_trans hab hba
      rw [charListLt_irrefl] at this
      exact absurd this Bool.false_ne_true

/-- C3.  In statistics mode each item's price estimate is obtained by
sorting its 90-day closed window by date ascending, taking the first 7
entries chronologically (the oldest 7 in the window: every taken entry
dates no later than every remaining one), averaging their `median`
fields and rounding to 2 decimals; an empty window yields the
`float("inf")` sentinel instead of crashing. -/
theorem c3_statistics_price :
    statPrice [] = PVal.inf ∧
    ∀ entries : List StatEntry, entries ≠ [] →
      ∃ taken rest : List StatEntry,
        pySort statDateLe entries = taken ++ rest ∧
        (taken ++ rest).Perm entries ∧
        taken.length = min 7 entries.length ∧
        (∀ a ∈ taken, ∀ b ∈ rest, statDateLe a b = true) ∧
        statPrice entries =
          .fin (round2 ((taken.map (fun e => e.median)).sum /
            ((taken.map (fun e => e.median)).length : ℚ))) := by
  constructor
  · rfl
  · intro entries hne
    refine ⟨(pySort statDateLe entries).take 7, (pySort statDateLe entries).drop 7,
      (List.take_append_drop 7 (pySort statDateLe entries)).symm, ?_, ?_, ?_, ?_⟩
    · rw [List.take_append_drop]
      exact pySort_perm _ _
    · rw [List.length_take, (pySort_perm statDateLe entries).length_eq]
    · have hpw := pySort_pairwise statDateLe
        (fun a b c h1 h2 => statDateLe_trans a b c h1 h2) entries
        (fun a _ b _ => statDateLe_total a b)
      rw [← List.take_append_drop 7 (pySort statDateLe entries)] at hpw
      exact (List.pairwise_append.mp hpw).2.2
    · have hlen : (((pySort statDateLe entries).take 7).map
          (fun e => e.median)).length ≠ 0 := by
        rw [List.length_map, List.length_take,
          (pySort_perm statDateLe entries).length_eq]
        have h0 : entries.length ≠ 0 := fun h => hne (List.eq_nil_of_length_eq_zero h)
        omega
      simp only [statPrice]
      rw [if_neg hlen]

/-- Witness for C3 at a concrete two-entry window (given out of date
order) together with the empty-window sentinel case. -/
theorem c3_statistics_price_witness :
    ∃ taken rest : List StatEntry,
      pySort statDateLe [⟨"2024-01-02", 10⟩, ⟨"2024-01-01", 20⟩] = taken ++ rest ∧
      (taken ++ rest).Perm [⟨"2024-01-02", 10⟩, ⟨"2024-01-01", 20⟩] ∧
      taken.length = min 7 ([⟨"2024-01-02", 10⟩, ⟨"2024-01-01", 20⟩] :
        List StatEntry).length ∧
      (∀ a ∈ taken, ∀ b ∈ rest, statDateLe a b = true) ∧
      statPrice [⟨"2024-01-02", 10⟩, ⟨"2024-01-01", 20⟩] =
        .fin (round2 ((taken.map (fun e => e.median)).sum /
          ((taken.map (fun e => e.median)).length : ℚ))) :=
  c3_statistics_price.2 _ (by simp)

theorem round2_zero : round2 0 = 0 := by
  norm_num [round2, roundHalfEven]

theorem profitEntries_batch (mp : List (String × PVal)) :
    ∀ relics : List (String × RelicData),
      (∀ p ∈ relics, ∃ v, alookup mp (intactKey p.1) = some v ∧
        (v = PVal.inf ∨ ∃ q, v = PVal.fin q ∧ q ≠ 0)) →
      (∀ p ∈ relics, ∃ q, p.2.value = PVal.fin q) →
      ∃ es : List (String × PVal),
        profitEntries mp relics = some es ∧
        List.Forall₂ (fun (p : String × RelicData) (e : String × PVal) =>
          ∃ price, alookup mp (intactKey p.1) = some price ∧
            e = (p.1, roundP (pdivT p.2.value price)) ∧
            (price = PVal.inf → e.2 = PVal.fin 0)) relics es ∧
        (∀ e ∈ es, ∃ q, e.2 = PVal.fin q) := by
  intro relics
  induction relics with
  | nil =>
    intro _ _
    exact ⟨[], rfl, List.Forall₂.nil, by simp⟩
  | cons p ps ih =>
    intro hprice hval
    obtain ⟨v, hv, hvcase⟩ := hprice p (by simp)
    obtain ⟨q, hq⟩ := hval p (by simp)
    obtain ⟨es, hes, hf2, hfin⟩ := ih
      (fun r hr => hprice r (by simp [hr]))
      (fun r hr => hval r (by simp [hr]))
    have hentry : profitEntry mp p = some (p.1, roundP (pdivT p.2.value v)) := by
      rcases hvcase with rfl | ⟨qq, rfl, hqq⟩
      · simp [profitEntry, hv, pdivChecked]
      · simp [profitEntry, hv, pdivChecked, hqq]
    refine ⟨(p.1, roundP (pdivT p.2.value v)) :: es, ?_, ?_, ?_⟩
    · simp only [profitEntries] at hes ⊢
      rw [List.mapM_cons, hentry, hes]
      rfl
    · refine List.Forall₂.cons ⟨v, hv, rfl, ?_⟩ hf2
      intro hvinf
      subst hvinf
      rw [hq]
      simp [pdivT, roundP, round2_zero]
    · intro e he
      rcases List.mem_cons.mp he with rfl | he'
      · rcases hvcase with rfl | ⟨qq, rfl, hqq⟩
        · rw [hq]
          exact ⟨round2 0, by simp [pdivT, roundP]⟩
        · rw [hq]
          refine ⟨round2 (q / qq), ?_⟩
          simp [pdivT, roundP, hqq]
      · exact hfin e he'

/-- C2 (amended).  For every relic list whose intact-key lookups all
succeed (each with the `inf` sentinel or a nonzero finite price) and
whose relic values are finite, the profit stage completes without a
crash; each relic's ratio is its value divided by the price found under
the key made of the first two space-separated tokens of its name plus
`" Intact"`, rounded to 2 decimals — not the unrounded quotient — and a
sentinel (`inf`) intact price yields ratio exactly 0; in the ranking,
sorted descending, no strictly-positive-ratio relic appears after a
zero-ratio one, so a sentinel-priced relic sorts below every relic with
a strictly positive ratio (it may still tie with, and by sort stability
precede, a relic whose finite ratio is also 0, which is what refutes
the original claim's "below every relic with a finite ratio", see
`c2_counterexample`). -/
theorem c2_profit_ranking (mp : List (String × PVal))
    (relics : List (String × RelicData))
    (hprice : ∀ p ∈ relics, ∃ v, alookup mp (intactKey p.1) = some v ∧
      (v = PVal.inf ∨ ∃ q, v = PVal.fin q ∧ q ≠ 0))
    (hval : ∀ p ∈ relics, ∃ q, p.2.value = PVal.fin q) :
    ∃ es l : List (String × PVal),
      profitEntries mp relics = some es ∧
      profitStage mp relics = some l ∧
      l.Perm es ∧
      List.Forall₂ (fun (p : String × RelicData) (e : String × PVal) =>
        ∃ price, alookup mp (intactKey p.1) = some price ∧
          e = (p.1, roundP (pdivT p.2.value price)) ∧
          (price = PVal.inf → e.2 = PVal.fin 0)) relics es ∧
      List.Pairwise (fun a b => pleB b.2 a.2 = true) l ∧
      (∀ (i j : ℕ) (hi : i < l.length) (hj : j < l.length), i < j →
        ∀ qj : ℚ, (l.get ⟨j, hj⟩).2 = PVal.fin qj → 0 < qj →
          (l.get ⟨i, hi⟩).2 ≠ PVal.fin 0) := by
  obtain ⟨es, hes, hf2, hfin⟩ := profitEntries_batch mp relics hprice hval
  have hpair : (pySort profitRatioLe es).Pairwise
      (fun a b => profitRatioLe a b = true) :=
    pySort_pairwise profitRatioLe
      (fun a b c h1 h2 => pleB_trans h2 h1)
      es
      (fun a ha b hb => by
        obtain ⟨qa, hqa⟩ := hfin a ha
        obtain ⟨qb, hqb⟩ := hfin b hb
        simp only [profitRatioLe, hqa, hqb]
        exact pleB_fin_total qb qa)
  have hpair' : (pySort profitRatioLe es).Pairwise
      (fun a b => pleB b.2 a.2 = true) := hpair
  refine ⟨es, pySort profitRatioLe es, hes, by simp [profitStage, hes],
    pySort_perm _ _, hf2, hpair', ?_⟩
  intro i j hi hj hij qj hqj hqjpos hzero
  have hR := List.pairwise_iff_get.mp hpair' ⟨i, hi⟩ ⟨j, hj⟩ hij
  rw [hqj, hzero] at hR
  simp only [pleB, decide_eq_true_eq] at hR
  exact absurd hR (not_le.mpr hqjpos)

/-- Witness for C2 at a concrete two-relic input: one relic with a
sentinel intact price and one with a finite price. -/
theorem c2_profit_ranking_witness :
    ∃ es l : List (String × PVal),
      profitEntries [("Lith A1 Intact", PVal.inf), ("Meso B2 Intact", PVal.fin 10)]
        [("Lith A1 Intact", ⟨"lith_a1_relic", "Lith A1 Intact", [], .fin (5/2), 0⟩),
         ("Meso B2 Intact", ⟨"meso_b2_relic", "Meso B2 Intact", [], .fin 5, 0⟩)] =
        some es ∧
      profitStage [("Lith A1 Intact", PVal.inf), ("Meso B2 Intact", PVal.fin 10)]
        [("Lith A1 Intact", ⟨"lith_a1_relic", "Lith A1 Intact", [], .fin (5/2), 0⟩),
         ("Meso B2 Intact", ⟨"meso_b2_relic", "Meso B2 Intact", [], .fin 5, 0⟩)] =
        some l ∧
      l.Perm es ∧
      List.Forall₂ (fun (p : String × RelicData) (e : String × PVal) =>
        ∃ price, alookup [("Lith A1 Intact", PVal.inf), ("Meso B2 Intact", PVal.fin 10)]
            (intactKey p.1) = some price ∧
          e = (p.1, roundP (pdivT p.2.value price)) ∧
          (price = PVal.inf → e.2 = PVal.fin 0))
        [("Lith A1 Intact", ⟨"lith_a1_relic", "Lith A1 Intact", [], .fin (5/2), 0⟩),
         ("Meso B2 Intact", ⟨"meso_b2_relic", "Meso B2 Intact", [], .fin 5, 0⟩)] es ∧
      List.Pairwise (fun a b => pleB b.2 a.2 = true) l ∧
      (∀ (i j : ℕ) (hi : i < l.length) (hj : j < l.length), i < j →
        ∀ qj : ℚ, (l.get ⟨j, hj⟩).2 = PVal.fin qj → 0 < qj →
          (l.get ⟨i, hi⟩).2 ≠ PVal.fin 0) := by
  apply c2_profit_ranking
  · intro p hp
    rcases List.mem_cons.mp hp with rfl | hp'
    · exact ⟨PVal.inf, by decide, Or.inl rfl⟩
    · rcases List.mem_cons.mp hp' with rfl | hp''
      · exact ⟨PVal.fin 10, by decide, Or.inr ⟨10, rfl, by norm_num⟩⟩
      · simp at hp''
  · intro p hp
    rcases List.mem_cons.mp hp with rfl | hp'
    · exact ⟨5/2, rfl⟩
    · rcases List.mem_cons.mp hp' with rfl | hp''
      · exact ⟨5, rfl⟩
      · simp at hp''

/-- Price map for the C2 counterexample: one sentinel intact price
(empty statistics window → `inf`) and two finite intact prices. -/
def c2mp : List (String × PVal) :=
  [("Lith A1 Intact", .fin 3), ("Meso B2 Intact", .inf), ("Neo C3 Intact", .fin 10)]

/-- Relic list (already in value-descending order, as `sorted_relics`
would be) for the C2 counterexample. -/
def c2relics : List (String × RelicData) :=
  [("Meso B2 Intact", ⟨"meso_b2_relic", "Meso B2 Intact", [], .fin (5/2), 0⟩),
   ("Lith A1 Intact", ⟨"lith_a1_relic", "Lith A1 Intact", [], .fin 1, 0⟩),
   ("Neo C3 Intact", ⟨"neo_c3_relic", "Neo C3 Intact", [], .fin 0, 0⟩)]

/-- Counterexample to C2 as stated, on one concrete input.  Two
violations: (1) the relic `Lith A1 Intact` with value 1 and intact
price 3 gets ratio `0.33`, not the claimed exact quotient `1/3`
(the code rounds at main.py line 317); (2) the relic `Meso B2 Intact`,
whose intact price is the `inf` sentinel, gets ratio 0 yet appears at
index 1 of the ranking, *above* `Neo C3 Intact` at index 2, whose
intact price 10 is finite (its ratio is also 0 and the stable sort kept
input order) — so the sentinel-priced relic does not sort below every
relic with a finite ratio. -/
theorem c2_counterexample :
    profitStage c2mp c2relics =
      some [("Lith A1 Intact", .fin (33/100)), ("Meso B2 Intact", .fin 0),
            ("Neo C3 Intact", .fin 0)] ∧
    alookup c2mp (intactKey "Meso B2 Intact") = some PVal.inf ∧
    alookup c2mp (intactKey "Neo C3 Intact") = some (PVal.fin 10) ∧
    alookup c2mp (intactKey "Lith A1 Intact") = some (PVal.fin 3) ∧
    (33 / 100 : ℚ) ≠ 1 / 3 := by
  refine ⟨?_, by decide, by decide, by decide, by norm_num⟩
  simp [profitStage, profitEntries, profitEntry, c2mp, c2relics, alookup, intactKey,
    joinSpace, splitSpace, pdivChecked, pdivT, roundP, round2, roundHalfEven,
    pySort, pyInsert, profitRatioLe, pleB, List.mapM, List.mapM.loop, Option.bind]
  norm_num [Int.fract]
  simp [pyInsert, profitRatioLe, pleB]

/-- 1 for a task holding a pool slot, 0 otherwise. -/
def isRunN : TStatus → ℕ
  | .running _ => 1
  | _ => 0

theorem countRunning_cons (t : TStatus) (ts : List TStatus) :
    countRunning (t :: ts) = isRunN t + countRunning ts := by
  cases t <;> rfl

theorem countRunning_set (ts : List TStatus) :
    ∀ (i : ℕ) (y x : TStatus), ts.get? i = some y →
      countRunning (ts.set i x) + isRunN y = countRunning ts + isRunN x := by
  induction ts with
  | nil => intro i y x h; simp at h
  | cons t ts ih =>
    intro i y x h
    cases i with
    | zero =>
      simp only [List.get?] at h
      injection h with h
      subst h
      rw [show (t :: ts).set 0 x = x :: ts from rfl,
        countRunning_cons, countRunning_cons]
      omega
    | succ i' =>
      simp only [List.get?] at h
      have hrec := ih i' y x h
      rw [show (t :: ts).set (i' + 1) x = t :: ts.set i' x from rfl,
        countRunning_cons, countRunning_cons]
      omega

theorem poolStep_measure (is429 : ℕ → ℕ → Bool) {s s' : PoolState}
    (h : PoolStep is429 s s') :
    countRunning s'.tasks + s'.avail = countRunning s.tasks + s.avail := by
  cases h with
  | acquire i hget hpos =>
    have hc := countRunning_set s.tasks i .waiting (.running 0) hget
    simp only [isRunN] at hc
    dsimp only
    omega
  | retry i k hget h429 =>
    have hc := countRunning_set s.tasks i (.running k) (.running (k + 1)) hget
    simp only [isRunN] at hc
    dsimp only
    omega
  | finish i k hget h429 =>
    have hc := countRunning_set s.tasks i (.running k) (.done k) hget
    simp only [isRunN] at hc
    dsimp only
    omega

theorem countRunning_replicate_waiting :
    ∀ m : ℕ, countRunning (List.replicate m TStatus.waiting) = 0 := by
  intro m
  induction m with
  | zero => rfl
  | succ n ihn =>
    rw [List.replicate_succ, countRunning_cons, ihn]
    rfl

theorem poolReach_measure (is429 : ℕ → ℕ → Bool) {s s' : PoolState}
    (h : PoolReach is429 s s') :
    countRunning s'.tasks + s'.avail = countRunning s.tasks + s.avail := by
  induction h with
  | refl => rfl
  | tail h1 h2 ih => exact (poolStep_measure is429 h2).trans ih

/-- C9 (amended).  In every event-loop state reachable from the start
of the fetch phase (`N` free permits, `m` tasks not yet admitted), at
most `N` requests are in flight — `async with sem` admits a task only
when a permit is free — whatever the server's 429 pattern.  (The
original claim's second half, that a 429 for one entity never blocks
other entities, is refuted by `c9_counterexample`: the retry loop runs
inside the semaphore context, so a throttled task keeps its slot.) -/
theorem c9_pool_bound (is429 : ℕ → ℕ → Bool) (N m : ℕ) (s : PoolState)
    (h : PoolReach is429 ⟨N, List.replicate m .waiting⟩ s) :
    countRunning s.tasks ≤ N := by
  have hm := poolReach_measure is429 h
  have hz := countRunning_replicate_waiting m
  simp only [hz] at hm
  omega

/-- Witness for C9 with one permit and two pending tasks at the initial
state itself. -/
theorem c9_pool_bound_witness :
    countRunning (List.replicate 2 TStatus.waiting) ≤ 1 :=
  c9_pool_bound (fun _ _ => true) 1 2 ⟨1, List.replicate 2 .waiting⟩
    Relation.ReflTransGen.refl

/-- A server that throttles entity 0 on every attempt and never
throttles anyone else. -/
def c9resp : ℕ → ℕ → Bool := fun i _ => decide (i = 0)

theorem c9_blocked_invariant (s : PoolState)
    (h : PoolReach c9resp ⟨0, [.running 0, .waiting]⟩ s) :
    s.avail = 0 ∧ ∃ k, s.tasks = [.running k, .waiting] := by
  induction h with
  | refl => exact ⟨rfl, 0, rfl⟩
  | tail h1 h2 ih =>
    obtain ⟨havail, k, htasks⟩ := ih
    cases h2 with
    | acquire i hget hpos =>
      rw [havail] at hpos
      omega
    | retry i k' hget h429 =>
      rw [htasks] at hget
      match i, hget with
      | 0, hget =>
        exact ⟨havail, k' + 1, by rw [htasks]; rfl⟩
      | 1, hget => simp at hget
      | (n + 2), hget => simp at hget
    | finish i k' hget h429 =>
      rw [htasks] at hget
      match i, hget with
      | 0, hget =>
        rw [show c9resp 0 k' = true from by simp [c9resp]] at h429
        exact absurd h429 (by simp)
      | 1, hget => simp at hget
      | (n + 2), hget => simp at hget

/-- Counterexample to C9 as stated: with a pool bound of 1, the state
in which entity 0 has been admitted is reachable, and from it, under a
server that returns 429 to entity 0 forever, no reachable state ever
has entity 1 leave the waiting queue — its fetch never starts, let
alone finishes.  The 429 retry (main.py lines 194-196) runs inside
`async with sem` (lines 214-215), so the throttled task holds the only
slot and blocks every other entity. -/
theorem c9_counterexample :
    PoolReach c9resp ⟨1, [.waiting, .waiting]⟩ ⟨0, [.running 0, .waiting]⟩ ∧
    ¬ ∃ s : PoolState, PoolReach c9resp ⟨0, [.running 0, .waiting]⟩ s ∧
      s.tasks.get? 1 ≠ some TStatus.waiting := by
  constructor
  · exact Relation.ReflTransGen.single
      (PoolStep.acquire ⟨1, [.waiting, .waiting]⟩ 0 rfl Nat.one_pos)
  · rintro ⟨s, hreach, hne⟩
    obtain ⟨_, k, htasks⟩ := c9_blocked_invariant s hreach
    apply hne
    rw [htasks]
    rfl
